import Mathlib

/- Verification of the rlattice repository: the modular Element and
Polynomial library (src/polynomial.rs) and the BFV scheme variants
(src/bfv.rs, src/bfv_pke.rs, src/bfv_ske.rs).

Representation notes.  An Element<A> stores a u64 field `value`; we embed
that stored value as a natural number.  The source computes with i64
intermediates.  For moduli A <= 2^62 and i64 arguments, every `as i64`
cast and every addition or subtraction appearing in the source is exact
(x % A lies in (-A, A), so x % A + A lies in (0, 2A) <= 2^63), so those
operations are embedded as exact integer arithmetic followed by the
`balanced` reduction, which copies the source formula
`((x % A as i64 + A as i64) % A as i64) as u64` with `%` the Rust
(truncating) remainder, embedded as Int.tmod.  For A > 2^62 the chain
itself wraps or overflows in the source and `balanced` stops being a
model of it; theorems quantifying over the modulus therefore carry an
explicit bound placing them in the exact regime.  The i64 multiply in
`Mul for Element` can additionally overflow for moduli above about 2^31:
`elemMulI64` and `polyMulI64` model the wrapping (release-build) multiply
faithfully, while `elemMul` and `polyMul` are the exact forms, equal to
the wrapping ones exactly when every product of stored values fits in
i64 (proved in elemMulI64_eq_elemMul and polyMulI64_eq_polyMul).

Randomness.  `Polynomial::rand` and `Polynomial::ternary_error` draw from
a thread-local generator; they are embedded as functions of an explicit
sample vector.  `rand` samples each coefficient uniformly from [0, A) and
passes it through Element::new; `ternary_error` samples
`rng.random_range(0..=1)`, i.e. a bit in {0, 1}, and passes it through
Element::new.  The scheme functions take all sample vectors as explicit
arguments. -/

namespace RLattice

/-- Element::balanced in src/polynomial.rs: `((x % A as i64 + A as i64) % A as i64) as u64`.
Rust `%` on i64 is the truncating remainder, Int.tmod.  Exact model of
the source for A <= 2^62 and x in the i64 range; beyond that the source
expression wraps (`A as i64` for A >= 2^63, the addition for A > 2^62)
and can store values outside [0, A), so results about arbitrary moduli
are stated with an explicit A <= 2^62 bound. -/
def balanced (A : ℕ) (x : ℤ) : ℕ :=
  ((x.tmod A + A).tmod A).toNat

/-- Element::new in src/polynomial.rs. -/
def elemNew (A : ℕ) (x : ℤ) : ℕ := balanced A x

/-- Add for Element in src/polynomial.rs. -/
def elemAdd (A : ℕ) (x y : ℕ) : ℕ := balanced A ((x : ℤ) + y)

/-- Sub for Element in src/polynomial.rs. -/
def elemSub (A : ℕ) (x y : ℕ) : ℕ := balanced A ((x : ℤ) - y)

/-- Neg for Element in src/polynomial.rs: `Self::new(-(self.value as i64))`. -/
def elemNeg (A : ℕ) (x : ℕ) : ℕ := elemNew A (-(x : ℤ))

/-- Mul for Element in src/polynomial.rs, in exact integer arithmetic;
faithful to the source whenever the product of the stored values fits in
i64 (see elemMulI64 for the overflowing form). -/
def elemMul (A : ℕ) (x y : ℕ) : ℕ := balanced A ((x : ℤ) * y)

/-- Reduction of an integer into the i64 two-complement range, modelling
both the Rust `as i64` cast of a u64 and the wrapping result of an
overflowing i64 multiply in a release build. -/
def wrapI64 (z : ℤ) : ℤ := (z + 2 ^ 63) % 2 ^ 64 - 2 ^ 63

/-- Mul for Element in src/polynomial.rs with the i64 casts and the
wrapping multiply modelled explicitly:
`balanced(self.value as i64 * rhs.value as i64)`. -/
def elemMulI64 (A : ℕ) (x y : ℕ) : ℕ :=
  balanced A (wrapI64 (wrapI64 x * wrapI64 y))

/-- A Polynomial<N, A> is a fixed array of N stored Element values. -/
abbrev Poly (N : ℕ) : Type := Fin N → ℕ

/-- Concrete polynomial literal built from a list of stored values. -/
def polyOfList (N : ℕ) (l : List ℕ) : Poly N := fun i => l.getD i 0

/-- Polynomial::rand in src/polynomial.rs, with the uniform draws from
[0, A) passed explicitly: each sample goes through Element::new.  The
source first builds `Uniform::new(0, A as i64).unwrap()`, which panics
for A = 0 and for A >= 2^63 (the cast makes the upper bound nonpositive);
this embedding is therefore only used for 0 < A < 2^63, and theorems
about totality of the callers carry that bound. -/
def polyRand (A : ℕ) {N : ℕ} (s : Poly N) : Poly N := fun i => elemNew A (s i)

/-- Polynomial::lift in src/polynomial.rs:
`Element::<B>::new(self.inner[i].value as i64)` for each coefficient. -/
def lift (B : ℕ) {N : ℕ} (p : Poly N) : Poly N := fun i => elemNew B (p i)

/-- Polynomial::ternary_error in src/polynomial.rs, with the draws of
`rng.random_range(0..=1)` passed explicitly: each sampled bit goes
through Element::new. -/
def ternaryError (A : ℕ) {N : ℕ} (r : Poly N) : Poly N := fun i => elemNew A (r i)

/-- Polynomial::from_int_scaled in src/polynomial.rs: coefficient i is
`Element::new(((int >> i) & 1) as i64 * delta)` when i < u16::BITS = 16,
and `Element::new(0)` otherwise. -/
def fromIntScaled (A N : ℕ) (int : ℕ) (delta : ℤ) : Poly N := fun i =>
  if (i : ℕ) < 16 then elemNew A ((((int >>> (i : ℕ)) &&& 1 : ℕ) : ℤ) * delta)
  else elemNew A 0

/-- u64_msb in src/polynomial.rs: `(value >> (len - 1)) & 1`. -/
def u64msb (value len : ℕ) : ℕ := (value >>> (len - 1)) &&& 1

/-- Polynomial::msb in src/polynomial.rs: takes the bit at position
`A.ilog2() - 1` of each stored value and rebuilds a mod-2 polynomial. -/
def polyMsb (A : ℕ) {N : ℕ} (p : Poly N) : Poly N := fun i =>
  elemNew 2 (u64msb (p i) (Nat.log2 A))

/-- Add for Polynomial in src/polynomial.rs: coefficientwise Element add. -/
def polyAdd (A : ℕ) {N : ℕ} (p q : Poly N) : Poly N := fun i => elemAdd A (p i) (q i)

/-- Neg for Polynomial in src/polynomial.rs: coefficientwise Element neg. -/
def polyNeg (A : ℕ) {N : ℕ} (p : Poly N) : Poly N := fun i => elemNeg A (p i)

/-- Mul of a Polynomial by an Element in src/polynomial.rs:
coefficientwise Element mul by the scalar. -/
def polyMulElem (A : ℕ) {N : ℕ} (p : Poly N) (e : ℕ) : Poly N := fun i =>
  elemMul A (p i) e

/-- One iteration of the double loop in Mul for Polynomial in
src/polynomial.rs: `prod = inner[i] * rhs.inner[j]; k = i + j;
if k < N then out[k] = out[k] + prod else out[k - N] = out[k - N] - prod`. -/
def mulStep (A : ℕ) {N : ℕ} (p q : Poly N) (out : Poly N) (ij : Fin N × Fin N) :
    Poly N :=
  let prod := elemMul A (p ij.1) (q ij.2)
  if h : (ij.1 : ℕ) + (ij.2 : ℕ) < N then
    Function.update out ⟨(ij.1 : ℕ) + (ij.2 : ℕ), h⟩
      (elemAdd A (out ⟨(ij.1 : ℕ) + (ij.2 : ℕ), h⟩) prod)
  else
    have hk : (ij.1 : ℕ) + (ij.2 : ℕ) - N < N := by
      have h1 := ij.1.isLt
      have h2 := ij.2.isLt
      omega
    Function.update out ⟨(ij.1 : ℕ) + (ij.2 : ℕ) - N, hk⟩
      (elemSub A (out ⟨(ij.1 : ℕ) + (ij.2 : ℕ) - N, hk⟩) prod)

/-- Mul for Polynomial in src/polynomial.rs: the schoolbook negacyclic
double loop, starting from the all-`Element::new(0)` array and visiting
the index pairs (i, j) in loop order, with the coefficient products in
exact integer arithmetic; faithful to the source only while every
product of stored values fits in i64 (see polyMulI64 for the wrapping
form, and polyMulI64_eq_polyMul for their agreement below 2^31). -/
def polyMul (A : ℕ) {N : ℕ} (p q : Poly N) : Poly N :=
  ((List.finRange N).product (List.finRange N)).foldl (mulStep A p q)
    (fun _ => elemNew A 0)

/-- One iteration of the double loop in Mul for Polynomial with the i64
multiply modelled by the wrapping elemMulI64; identical to mulStep
otherwise. -/
def mulStepI64 (A : ℕ) {N : ℕ} (p q : Poly N) (out : Poly N) (ij : Fin N × Fin N) :
    Poly N :=
  let prod := elemMulI64 A (p ij.1) (q ij.2)
  if h : (ij.1 : ℕ) + (ij.2 : ℕ) < N then
    Function.update out ⟨(ij.1 : ℕ) + (ij.2 : ℕ), h⟩
      (elemAdd A (out ⟨(ij.1 : ℕ) + (ij.2 : ℕ), h⟩) prod)
  else
    have hk : (ij.1 : ℕ) + (ij.2 : ℕ) - N < N := by
      have h1 := ij.1.isLt
      have h2 := ij.2.isLt
      omega
    Function.update out ⟨(ij.1 : ℕ) + (ij.2 : ℕ) - N, hk⟩
      (elemSub A (out ⟨(ij.1 : ℕ) + (ij.2 : ℕ) - N, hk⟩) prod)

/-- Mul for Polynomial with the release-build wrapping i64 multiply:
the faithful model of the source loop at every modulus below 2^62. -/
def polyMulI64 (A : ℕ) {N : ℕ} (p q : Poly N) : Poly N :=
  ((List.finRange N).product (List.finRange N)).foldl (mulStepI64 A p q)
    (fun _ => elemNew A 0)

/-- Signed contribution of the source pair (i, j) to output coefficient k
under the negacyclic convolution, exactly as the spec phrases it: the
product lands on index (i + j) mod N and is negated when i + j >= N. -/
def negacyclicContrib {N : ℕ} (p q : Poly N) (k i j : Fin N) : ℤ :=
  if ((i : ℕ) + (j : ℕ)) % N = (k : ℕ) then
    (if (i : ℕ) + (j : ℕ) < N then ((p i : ℤ) * q j) else -((p i : ℤ) * q j))
  else 0

/-- u64::div_ceil as used for Δ in all scheme files:
`self / rhs + (if self % rhs != 0 then 1 else 0)`. -/
def divCeil (a b : ℕ) : ℕ := a / b + if a % b = 0 then 0 else 1

/-- Shared first step of every decrypt: `ct = c_1 + c_2 * sk.lift::<Q>()`. -/
def decPoly (Q : ℕ) {N : ℕ} (c : Poly N × Poly N) (sk : Poly N) : Poly N :=
  polyAdd Q c.1 (polyMul Q c.2 (lift Q sk))

/-- Bfv::keygen in src/bfv_pke.rs with the random draws explicit:
`sk = Polynomial::<N,2>::rand(); a = Polynomial::<N,Q>::rand();
e = ternary_error(); pk = (-(a * sk.lift::<Q>() + e), a)`.
The first component of the result is the Rust pk pair (pk.0, pk.1),
the second is sk.  Note keygen never reads T. -/
def pkeKeygen (Q : ℕ) {N : ℕ} (skS aS eS : Poly N) : (Poly N × Poly N) × Poly N :=
  let sk := polyRand 2 skS
  let a := polyRand Q aS
  let e := ternaryError Q eS
  let pk1 := polyNeg Q (polyAdd Q (polyMul Q a (lift Q sk)) e)
  ((pk1, a), sk)

/-- Bfv::encrypt in src/bfv_pke.rs with the random draws explicit:
`delta_elem = Element::<Q>::new(Q.div_ceil(T)); delta_m = message.lift::<Q>() * delta_elem;
u = Polynomial::<N,2>::rand().lift::<Q>(); e_1, e_2 = ternary_error();
c_1 = pk.0 * u + e_1 + delta_m; c_2 = pk.1 * u + e_2`. -/
def pkeEncrypt (Q T : ℕ) {N : ℕ} (pk : Poly N × Poly N) (message : Poly N)
    (uS e1S e2S : Poly N) : Poly N × Poly N :=
  let deltaElem := elemNew Q (divCeil Q T : ℤ)
  let deltaM := polyMulElem Q (lift Q message) deltaElem
  let u := lift Q (polyRand 2 uS)
  let e1 := ternaryError Q e1S
  let e2 := ternaryError Q e2S
  let c1 := polyAdd Q (polyAdd Q (polyMul Q pk.1 u) e1) deltaM
  let c2 := polyAdd Q (polyMul Q pk.2 u) e2
  (c1, c2)

/-- BfvCipher::decrypt in src/bfv_pke.rs:
`ct = c_1 + c_2 * sk.lift::<Q>(); rounded = (value + delta/2) / delta;
Element::<T>::new(rounded as i64)` for each coefficient. -/
def pkeDecrypt (Q T : ℕ) {N : ℕ} (c : Poly N × Poly N) (sk : Poly N) : Poly N :=
  let ct := decPoly Q c sk
  let delta := divCeil Q T
  fun i => elemNew T (((ct i + delta / 2) / delta : ℕ) : ℤ)

/-- Add for BfvCipher, identical in src/bfv.rs, src/bfv_pke.rs and
src/bfv_ske.rs: componentwise polynomial addition. -/
def cipherAdd (Q : ℕ) {N : ℕ} (c d : Poly N × Poly N) : Poly N × Poly N :=
  (polyAdd Q c.1 d.1, polyAdd Q c.2 d.2)

/-- Bfv::keygen in src/bfv.rs: textually the same computation as the one
in src/bfv_pke.rs (the only difference in the source is a println). -/
def bfvKeygen (Q : ℕ) {N : ℕ} (skS aS eS : Poly N) : (Poly N × Poly N) × Poly N :=
  let sk := polyRand 2 skS
  let a := polyRand Q aS
  let e := ternaryError Q eS
  let pk1 := polyNeg Q (polyAdd Q (polyMul Q a (lift Q sk)) e)
  ((pk1, a), sk)

/-- Bfv::encrypt in src/bfv.rs: same formulas as in src/bfv_pke.rs; the
Rust message type there is Polynomial<N, 2> rather than Polynomial<N, T>. -/
def bfvEncrypt (Q T : ℕ) {N : ℕ} (pk : Poly N × Poly N) (message : Poly N)
    (uS e1S e2S : Poly N) : Poly N × Poly N :=
  let deltaElem := elemNew Q (divCeil Q T : ℤ)
  let deltaM := polyMulElem Q (lift Q message) deltaElem
  let u := lift Q (polyRand 2 uS)
  let e1 := ternaryError Q e1S
  let e2 := ternaryError Q e2S
  let c1 := polyAdd Q (polyAdd Q (polyMul Q pk.1 u) e1) deltaM
  let c2 := polyAdd Q (polyMul Q pk.2 u) e2
  (c1, c2)

/-- BfvCipher::decrypt in src/bfv.rs:
`rounded = ((value + delta/2) / delta) % T; Element::<T>::new(rounded)`. -/
def bfvDecrypt (Q T : ℕ) {N : ℕ} (c : Poly N × Poly N) (sk : Poly N) : Poly N :=
  let ct := decPoly Q c sk
  let delta := divCeil Q T
  fun i => elemNew T ((((ct i + delta / 2) / delta) % T : ℕ) : ℤ)

/-- Bfv::encrypt in src/bfv_ske.rs with the random draws explicit:
`delta_m = message.lift::<Q>() * delta_elem; a = rand(); e = ternary_error();
c_1 = sk.lift::<Q>() * a + delta_m + e; c_2 = -a`. -/
def skeEncrypt (Q T : ℕ) {N : ℕ} (message sk : Poly N) (aS eS : Poly N) :
    Poly N × Poly N :=
  let deltaElem := elemNew Q (divCeil Q T : ℤ)
  let deltaM := polyMulElem Q (lift Q message) deltaElem
  let a := polyRand Q aS
  let e := ternaryError Q eS
  let c1 := polyAdd Q (polyAdd Q (polyMul Q (lift Q sk) a) deltaM) e
  let c2 := polyNeg Q a
  (c1, c2)

/-- BfvCipher::decrypt in src/bfv_ske.rs:
`ct = c_1 + c_2 * sk.lift::<Q>(); ct.msb()`.  The result is the mod-2
polynomial of most significant bits, not the rounded value; the Rust
declared return type Polynomial<N, T> only matches it when T = 2. -/
def skeDecrypt (Q : ℕ) {N : ℕ} (c : Poly N × Poly N) (sk : Poly N) : Poly N :=
  polyMsb Q (decPoly Q c sk)

/-- Lower bound of the truncating remainder by a positive natural modulus. -/
theorem tmod_lower (x : ℤ) (A : ℕ) (hA : 0 < A) : -(A : ℤ) < x.tmod A := by
  rcases x with m | m
  · have h : 0 ≤ (Int.ofNat m).tmod A := Int.tmod_nonneg _ (Int.ofNat_nonneg m)
    omega
  · have h : (Int.negSucc m).tmod A = -(((m + 1 : ℕ) % A : ℕ) : ℤ) := by
      simp [Int.tmod]
    have h2 : (m + 1) % A < A := Nat.mod_lt _ hA
    omega

/-- The source reduction agrees with the mathematical nonnegative residue. -/
theorem balanced_eq_emod {A : ℕ} (hA : 0 < A) (x : ℤ) :
    (balanced A x : ℤ) = x % (A : ℤ) := by
  have hA' : (0 : ℤ) < A := by exact_mod_cast hA
  have hlow := tmod_lower x A hA
  have h1 : 0 ≤ x.tmod A + A := by omega
  have h2 : (x.tmod A + A).tmod A = (x.tmod A + A) % A :=
    Int.tmod_eq_emod h1 (le_of_lt hA')
  have h3 : x.tmod A = x - A * x.tdiv A := by
    have h4 := Int.tmod_add_tdiv x A
    linarith
  have h5 : (x.tmod A + A) % (A : ℤ) = x % A := by
    rw [h3, show x - (A : ℤ) * x.tdiv A + A = x + (A : ℤ) * (1 - x.tdiv A) by ring]
    exact Int.add_mul_emod_self_left x (A : ℤ) (1 - x.tdiv A)
  have h6 : 0 ≤ (x.tmod A + A) % (A : ℤ) := Int.emod_nonneg _ (ne_of_gt hA')
  rw [balanced, h2, h5]
  rw [h5] at h6
  exact Int.toNat_of_nonneg h6

/-- Every balanced result is strictly below the modulus. -/
theorem balanced_lt {A : ℕ} (hA : 0 < A) (x : ℤ) : balanced A x < A := by
  have h1 := balanced_eq_emod hA x
  have h2 : x % (A : ℤ) < A := Int.emod_lt_of_pos x (by exact_mod_cast hA)
  omega

/-- The balanced result is congruent to its argument. -/
theorem balanced_modEq {A : ℕ} (hA : 0 < A) (x : ℤ) :
    (balanced A x : ℤ) ≡ x [ZMOD (A : ℤ)] := by
  show (balanced A x : ℤ) % A = x % A
  rw [balanced_eq_emod hA, Int.emod_emod_of_dvd _ dvd_rfl]

/-- Congruent arguments balance to the same value. -/
theorem balanced_congr {A : ℕ} (hA : 0 < A) {x y : ℤ}
    (h : x ≡ y [ZMOD (A : ℤ)]) : balanced A x = balanced A y := by
  have h1 := balanced_eq_emod hA x
  have h2 := balanced_eq_emod hA y
  have h3 : x % (A : ℤ) = y % A := h
  omega

/-- On a natural argument the reduction is plain mod. -/
theorem balanced_natCast {A : ℕ} (hA : 0 < A) (n : ℕ) :
    balanced A (n : ℤ) = n % A := by
  have h1 := balanced_eq_emod hA (n : ℤ)
  have h2 : ((n : ℤ)) % (A : ℤ) = ((n % A : ℕ) : ℤ) := by
    push_cast
    rfl
  omega

/-- A stored value already below the modulus is left unchanged. -/
theorem balanced_of_lt {A : ℕ} {n : ℕ} (h : n < A) : balanced A (n : ℤ) = n := by
  rw [balanced_natCast (Nat.pos_of_ne_zero (by omega)) n, Nat.mod_eq_of_lt h]

/-- Two integers in the same residue window are equal when congruent. -/
theorem int_eq_of_modeq {n a b : ℤ} (ha1 : 0 ≤ a) (ha2 : a < n) (hb1 : 0 ≤ b)
    (hb2 : b < n) (h : a ≡ b [ZMOD n]) : a = b := by
  have h2 : a % n = b % n := h
  rwa [Int.emod_eq_of_lt ha1 ha2, Int.emod_eq_of_lt hb1 hb2] at h2

/-- Quotient of a multiple plus a small rest. -/
theorem mul_add_div_eq {D M r : ℕ} (hD : 0 < D) (hr : r < D) :
    (D * M + r) / D = M := by
  rw [Nat.mul_add_div hD, Nat.div_eq_of_lt hr, Nat.add_zero]

/-- Core rounding fact behind BFV decryption: when T divides Q, a stored
value congruent to (Q/T) * m + nu with 2|nu| < Q/T rounds back to m under
the source formula (value + delta/2) / delta reduced mod T. -/
theorem round_decode {Q T : ℕ} (hT : 0 < T) (hQ : 0 < Q) (hdvd : T ∣ Q)
    {v m : ℕ} (hv : v < Q) (hm : m < T) {nu : ℤ}
    (hnu : 2 * nu.natAbs < Q / T)
    (hcong : (v : ℤ) ≡ ((Q / T : ℕ) : ℤ) * m + nu [ZMOD (Q : ℤ)]) :
    (v + Q / T / 2) / (Q / T) % T = m := by
  set D := Q / T with hD
  have hQeq : T * D = Q := Nat.mul_div_cancel' hdvd
  have hDpos : 0 < D := by
    rcases Nat.eq_zero_or_pos D with h | h
    · omega
    · exact h
  have hQ' : (0 : ℤ) < Q := by exact_mod_cast hQ
  rcases le_or_lt 0 nu with hpos | hneg
  · -- nonnegative noise: v = D * m + nu with no wraparound
    have hb1 : 0 ≤ ((D : ℕ) : ℤ) * m + nu := by positivity
    have hnuD : nu < (D : ℤ) := by omega
    have hb2 : ((D : ℕ) : ℤ) * m + nu < (Q : ℤ) := by
      have hmT : (m : ℤ) + 1 ≤ (T : ℤ) := by exact_mod_cast hm
      have : ((D : ℕ) : ℤ) * m + nu < (D : ℤ) * ((m : ℤ) + 1) := by ring_nf; omega
      have h2 : (D : ℤ) * ((m : ℤ) + 1) ≤ (D : ℤ) * T := by
        apply mul_le_mul_of_nonneg_left hmT (by positivity)
      have h3 : (D : ℤ) * T = (Q : ℤ) := by
        push_cast [← hQeq]
        ring
      omega
    have heq : (v : ℤ) = ((D : ℕ) : ℤ) * m + nu :=
      int_eq_of_modeq (by positivity) (by exact_mod_cast hv) hb1 hb2 hcong
    obtain ⟨r, hr, hsum⟩ : ∃ r, r < D ∧ v + D / 2 = D * m + r := by
      refine ⟨nu.toNat + D / 2, by omega, by omega⟩
    rw [hsum, mul_add_div_eq hDpos hr, Nat.mod_eq_of_lt hm]
  · rcases Nat.eq_zero_or_pos m with hm0 | hmpos
    · -- negative noise on the zero coefficient: v wraps to Q + nu
      subst hm0
      have hb1 : 0 ≤ nu + (Q : ℤ) := by
        have : (nu.natAbs : ℤ) < D := by omega
        have hDQ : (D : ℤ) ≤ (Q : ℤ) := by
          have : D ≤ Q := Nat.div_le_self Q T
          exact_mod_cast this
        omega
      have hb2 : nu + (Q : ℤ) < Q := by omega
      have hcong2 : (v : ℤ) ≡ nu + (Q : ℤ) [ZMOD (Q : ℤ)] := by
        have h2 : (v : ℤ) % Q = nu % Q := by simpa using hcong
        show (v : ℤ) % Q = (nu + (Q : ℤ)) % Q
        rw [h2, show nu + (Q : ℤ) = nu + (Q : ℤ) * 1 by ring,
          Int.add_mul_emod_self_left]
      have heq : (v : ℤ) = nu + (Q : ℤ) :=
        int_eq_of_modeq (by positivity) (by exact_mod_cast hv) hb1 hb2 hcong2
      have hQeq2 : D * T = Q := by rw [Nat.mul_comm]; exact hQeq
      obtain ⟨r, hr, hsum⟩ : ∃ r, r < D ∧ v + D / 2 = D * T + r := by
        refine ⟨D / 2 - nu.natAbs, by omega, by omega⟩
      rw [hsum, mul_add_div_eq hDpos hr, Nat.mod_self]
    · -- negative noise on a nonzero coefficient: no wraparound
      have hb1 : 0 ≤ ((D : ℕ) : ℤ) * m + nu := by
        have h1 : (nu.natAbs : ℤ) < D := by omega
        have h2 : (D : ℤ) * 1 ≤ (D : ℤ) * m := by
          apply mul_le_mul_of_nonneg_left (by exact_mod_cast hmpos) (by positivity)
        omega
      have hb2 : ((D : ℕ) : ℤ) * m + nu < (Q : ℤ) := by
        have hmT : (m : ℤ) ≤ (T : ℤ) := by exact_mod_cast le_of_lt hm
        have h2 : (D : ℤ) * m ≤ (D : ℤ) * T := by
          apply mul_le_mul_of_nonneg_left hmT (by positivity)
        have h3 : (D : ℤ) * T = (Q : ℤ) := by
          push_cast [← hQeq]
          ring
        omega
      have heq : (v : ℤ) = ((D : ℕ) : ℤ) * m + nu :=
        int_eq_of_modeq (by positivity) (by exact_mod_cast hv) hb1 hb2 hcong
      obtain ⟨r, hr, hsum⟩ : ∃ r, r < D ∧ v + D / 2 = D * m + r := by
        have h4 : 1 ≤ m := hmpos
        have h5 : (nu.natAbs : ℤ) = -nu := Int.ofNat_natAbs_of_nonpos (le_of_lt hneg)
        refine ⟨D / 2 - nu.natAbs, by omega, ?_⟩
        have h6 : (v : ℤ) = (D : ℤ) * m - nu.natAbs := by omega
        have h7 : D * 1 ≤ D * m := Nat.mul_le_mul_left D h4
        omega
      rw [hsum, mul_add_div_eq hDpos hr, Nat.mod_eq_of_lt hm]

/-- Element addition is congruent to integer addition. -/
theorem elemAdd_modEq {A : ℕ} (hA : 0 < A) (x y : ℕ) :
    (elemAdd A x y : ℤ) ≡ (x : ℤ) + y [ZMOD (A : ℤ)] := balanced_modEq hA _

/-- Element subtraction is congruent to integer subtraction. -/
theorem elemSub_modEq {A : ℕ} (hA : 0 < A) (x y : ℕ) :
    (elemSub A x y : ℤ) ≡ (x : ℤ) - y [ZMOD (A : ℤ)] := balanced_modEq hA _

/-- Element multiplication is congruent to the integer product. -/
theorem elemMul_modEq {A : ℕ} (hA : 0 < A) (x y : ℕ) :
    (elemMul A x y : ℤ) ≡ (x : ℤ) * y [ZMOD (A : ℤ)] := balanced_modEq hA _

/-- Every coordinate stays below the modulus across one loop iteration. -/
theorem mulStep_lt {A N : ℕ} (hA : 0 < A) (p q out : Poly N)
    (h : ∀ k, out k < A) (ij : Fin N × Fin N) :
    ∀ k, mulStep A p q out ij k < A := by
  intro k
  unfold mulStep
  split
  · rw [Function.update_apply]
    split
    · exact balanced_lt hA _
    · exact h k
  · simp only [Function.update_apply]
    split
    · exact balanced_lt hA _
    · exact h k

/-- One loop iteration adds exactly the signed contribution of its index
pair, modulo A. -/
theorem mulStep_modEq {A N : ℕ} (hA : 0 < A) (p q out : Poly N)
    (ij : Fin N × Fin N) (k : Fin N) :
    (mulStep A p q out ij k : ℤ) ≡
      (out k : ℤ) + negacyclicContrib p q k ij.1 ij.2 [ZMOD (A : ℤ)] := by
  unfold mulStep negacyclicContrib
  by_cases hlt : (ij.1 : ℕ) + (ij.2 : ℕ) < N
  · rw [dif_pos hlt, Function.update_apply]
    have hmod : ((ij.1 : ℕ) + (ij.2 : ℕ)) % N = (ij.1 : ℕ) + (ij.2 : ℕ) :=
      Nat.mod_eq_of_lt hlt
    by_cases hk : k = ⟨(ij.1 : ℕ) + (ij.2 : ℕ), hlt⟩
    · rw [if_pos hk, if_pos (by rw [hmod, hk]), if_pos hlt, hk]
      calc (elemAdd A (out ⟨(ij.1 : ℕ) + (ij.2 : ℕ), hlt⟩)
              (elemMul A (p ij.1) (q ij.2)) : ℤ)
          ≡ (out ⟨(ij.1 : ℕ) + (ij.2 : ℕ), hlt⟩ : ℤ) +
              (elemMul A (p ij.1) (q ij.2) : ℤ) [ZMOD (A : ℤ)] :=
            elemAdd_modEq hA _ _
        _ ≡ (out ⟨(ij.1 : ℕ) + (ij.2 : ℕ), hlt⟩ : ℤ) +
              ((p ij.1 : ℤ) * q ij.2) [ZMOD (A : ℤ)] :=
            Int.ModEq.add_left _ (elemMul_modEq hA _ _)
    · rw [if_neg hk, if_neg (by rw [hmod]; exact fun hc => hk (Fin.ext hc.symm))]
      simp
  · rw [dif_neg hlt]
    simp only [Function.update_apply]
    have h1 := ij.1.isLt
    have h2 := ij.2.isLt
    have hge : N ≤ (ij.1 : ℕ) + (ij.2 : ℕ) := le_of_not_lt hlt
    have hsub : (ij.1 : ℕ) + (ij.2 : ℕ) - N < N := by omega
    have hmod : ((ij.1 : ℕ) + (ij.2 : ℕ)) % N = (ij.1 : ℕ) + (ij.2 : ℕ) - N := by
      rw [Nat.mod_eq_sub_mod hge, Nat.mod_eq_of_lt hsub]
    by_cases hk : k = ⟨(ij.1 : ℕ) + (ij.2 : ℕ) - N, hsub⟩
    · rw [if_pos hk, if_pos (by rw [hmod, hk]), if_neg hlt, hk]
      calc (elemSub A (out ⟨(ij.1 : ℕ) + (ij.2 : ℕ) - N, hsub⟩)
              (elemMul A (p ij.1) (q ij.2)) : ℤ)
          ≡ (out ⟨(ij.1 : ℕ) + (ij.2 : ℕ) - N, hsub⟩ : ℤ) -
              (elemMul A (p ij.1) (q ij.2) : ℤ) [ZMOD (A : ℤ)] :=
            elemSub_modEq hA _ _
        _ ≡ (out ⟨(ij.1 : ℕ) + (ij.2 : ℕ) - N, hsub⟩ : ℤ) +
              -((p ij.1 : ℤ) * q ij.2) [ZMOD (A : ℤ)] := by
            have h3 := Int.ModEq.add_left
              (c := (out ⟨(ij.1 : ℕ) + (ij.2 : ℕ) - N, hsub⟩ : ℤ))
              (Int.ModEq.neg (elemMul_modEq hA (p ij.1) (q ij.2)))
            calc (out ⟨(ij.1 : ℕ) + (ij.2 : ℕ) - N, hsub⟩ : ℤ) -
                  (elemMul A (p ij.1) (q ij.2) : ℤ)
                = (out ⟨(ij.1 : ℕ) + (ij.2 : ℕ) - N, hsub⟩ : ℤ) +
                  -(elemMul A (p ij.1) (q ij.2) : ℤ) := by ring
              _ ≡ _ [ZMOD (A : ℤ)] := h3
    · rw [if_neg hk, if_neg (by rw [hmod]; exact fun hc => hk (Fin.ext hc.symm))]
      simp

/-- Folding the loop body over any list of index pairs accumulates, at
each output coordinate, the reduced sum of the signed contributions. -/
theorem foldl_mulStep_eq {A N : ℕ} (hA : 0 < A) (p q : Poly N) :
    ∀ (L : List (Fin N × Fin N)) (out : Poly N), (∀ k, out k < A) →
      ∀ k, (L.foldl (mulStep A p q) out) k =
        balanced A ((out k : ℤ) +
          (L.map (fun ij => negacyclicContrib p q k ij.1 ij.2)).sum) := by
  intro L
  induction L with
  | nil =>
    intro out hout k
    simp only [List.foldl_nil, List.map_nil, List.sum_nil, add_zero]
    rw [balanced_natCast hA, Nat.mod_eq_of_lt (hout k)]
  | cons x L ih =>
    intro out hout k
    rw [List.foldl_cons, List.map_cons, List.sum_cons,
      ih (mulStep A p q out x) (mulStep_lt hA p q out hout x) k]
    apply balanced_congr hA
    have hstep := Int.ModEq.add_right
      ((L.map (fun ij => negacyclicContrib p q k ij.1 ij.2)).sum)
      (mulStep_modEq hA p q out x k)
    calc (mulStep A p q out x k : ℤ) +
          (L.map (fun ij => negacyclicContrib p q k ij.1 ij.2)).sum
        ≡ (out k : ℤ) + negacyclicContrib p q k x.1 x.2 +
          (L.map (fun ij => negacyclicContrib p q k ij.1 ij.2)).sum [ZMOD (A : ℤ)] :=
          hstep
      _ = (out k : ℤ) + (negacyclicContrib p q k x.1 x.2 +
          (L.map (fun ij => negacyclicContrib p q k ij.1 ij.2)).sum) := by ring

/-- Sum of a function over the list product equals the double list sum. -/
theorem product_map_sum {N : ℕ} (f : Fin N × Fin N → ℤ) :
    ∀ (l1 l2 : List (Fin N)),
      ((l1.product l2).map f).sum =
        (l1.map (fun a => ((l2.map (fun b => f (a, b))).sum))).sum := by
  intro l1
  induction l1 with
  | nil =>
    intro l2
    simp [List.product]
  | cons a t ih =>
    intro l2
    rw [show (a :: t).product l2 = l2.map (fun b => (a, b)) ++ t.product l2 from
      List.product_cons a t l2, List.map_append, List.sum_append, ih,
      List.map_cons, List.sum_cons, List.map_map]
    rfl

/-- The exact-arithmetic double loop computes, at every output index k,
the reduced signed sum of all pair contributions (helper for C4). -/
theorem polyMul_eq_contrib_sum {A N : ℕ} (hA : 0 < A) (p q : Poly N) (k : Fin N) :
    polyMul A p q k =
      balanced A (∑ i : Fin N, ∑ j : Fin N, negacyclicContrib p q k i j) := by
  have hzero : ∀ m : Fin N, (fun _ : Fin N => elemNew A 0) m < A := fun _ =>
    balanced_lt hA 0
  rw [polyMul, foldl_mulStep_eq hA p q _ _ hzero k]
  have h0 : elemNew A 0 = 0 := by
    have := balanced_natCast hA 0
    simpa [elemNew] using this
  rw [h0, product_map_sum (fun ij => negacyclicContrib p q k ij.1 ij.2)]
  rw [Fin.sum_univ_def]
  have hinner : ∀ a : Fin N,
      (∑ j : Fin N, negacyclicContrib p q k a j) =
        ((List.finRange N).map
          (fun b => negacyclicContrib p q k a b)).sum := fun a =>
    Fin.sum_univ_def _
  simp only [hinner]
  norm_num

/-- Every coordinate of the rounding input of decrypt is a stored value
below the ciphertext modulus. -/
theorem decPoly_lt {Q N : ℕ} (hQ : 0 < Q) (c : Poly N × Poly N) (sk : Poly N)
    (i : Fin N) : decPoly Q c sk i < Q := by
  simp only [decPoly, polyAdd, elemAdd]
  exact balanced_lt hQ _

/-- Every coordinate of a polynomial sum is below the modulus. -/
theorem polyAdd_lt {A N : ℕ} (hA : 0 < A) (p q : Poly N) (i : Fin N) :
    polyAdd A p q i < A := by
  show balanced A ((p i : ℤ) + q i) < A
  exact balanced_lt hA _

/-- When T divides Q the ceiling division is exact division. -/
theorem divCeil_of_dvd {Q T : ℕ} (hdvd : T ∣ Q) : divCeil Q T = Q / T := by
  obtain ⟨k, rfl⟩ := hdvd
  rw [divCeil, Nat.mul_mod_right]
  simp

/-- The explicit mod T in the decrypt of src/bfv.rs is absorbed by the
reduction inside Element::new, so the two rounding decrypts agree. -/
theorem bfvDecrypt_eq_pkeDecrypt (Q T : ℕ) {N : ℕ} (c : Poly N × Poly N)
    (sk : Poly N) : bfvDecrypt Q T c sk = pkeDecrypt Q T c sk := by
  funext i
  show elemNew T ((((decPoly Q c sk i + divCeil Q T / 2) / divCeil Q T) % T : ℕ) : ℤ)
      = elemNew T (((decPoly Q c sk i + divCeil Q T / 2) / divCeil Q T : ℕ) : ℤ)
  rcases Nat.eq_zero_or_pos T with h | h
  · subst h
    rw [Nat.mod_zero]
  · rw [elemNew, elemNew, balanced_natCast h, balanced_natCast h,
      Nat.mod_mod_of_dvd _ dvd_rfl]

/-- Decryption returns the target plaintext whenever every coefficient of
c1 + c2 * lift(sk) is within half of delta from delta times the target. -/
theorem pkeDecrypt_eq_of_noise {N Q T : ℕ} (hT : 0 < T) (hQ : 0 < Q)
    (hdvd : T ∣ Q) (c : Poly N × Poly N) (sk : Poly N) (target : Poly N)
    (htlt : ∀ i, target i < T)
    (hnoise : ∀ i, ∃ v : ℤ, 2 * v.natAbs < divCeil Q T ∧
      ((decPoly Q c sk i : ℕ) : ℤ) ≡
        ((divCeil Q T : ℕ) : ℤ) * target i + v [ZMOD (Q : ℤ)]) :
    pkeDecrypt Q T c sk = target := by
  have hdc : divCeil Q T = Q / T := divCeil_of_dvd hdvd
  funext i
  obtain ⟨v, hv1, hv2⟩ := hnoise i
  rw [hdc] at hv1 hv2
  have hlt := decPoly_lt hQ c sk i
  have hr := round_decode hT hQ hdvd hlt (htlt i) hv1 hv2
  show elemNew T (((decPoly Q c sk i + divCeil Q T / 2) / divCeil Q T : ℕ) : ℤ)
      = target i
  rw [hdc, elemNew, balanced_natCast hT, hr]

/-- An integer already in the i64 range is unchanged by the wrap. -/
theorem wrapI64_eq_self {z : ℤ} (h1 : -(2 ^ 63) ≤ z) (h2 : z < 2 ^ 63) :
    wrapI64 z = z := by
  unfold wrapI64
  rw [Int.emod_eq_of_lt (by omega) (by omega)]
  ring

/-- The wrapping multiply agrees with the exact one while the product of
the stored values fits in i64. -/
theorem elemMulI64_eq_elemMul {A x y : ℕ} (hx : (x : ℤ) < 2 ^ 63)
    (hy : (y : ℤ) < 2 ^ 63) (hxy : (x : ℤ) * y < 2 ^ 63) :
    elemMulI64 A x y = elemMul A x y := by
  have hprod : (0 : ℤ) ≤ (x : ℤ) * y := by positivity
  unfold elemMulI64 elemMul
  rw [wrapI64_eq_self (by omega) hx, wrapI64_eq_self (by omega) hy,
    wrapI64_eq_self (by omega) hxy]

/-- Below modulus 2^31 no coefficient product can overflow, so the
wrapping loop body agrees with the exact one. -/
theorem mulStepI64_eq_mulStep {A N : ℕ} (hA2 : A ≤ 2 ^ 31) (p q : Poly N)
    (hp : ∀ i, p i < A) (hq : ∀ j, q j < A) (out : Poly N)
    (ij : Fin N × Fin N) : mulStepI64 A p q out ij = mulStep A p q out ij := by
  have hpz : (p ij.1 : ℤ) < 2 ^ 31 := by
    have h1 := hp ij.1
    have h2 : (p ij.1 : ℤ) < A := by exact_mod_cast h1
    have h3 : (A : ℤ) ≤ 2 ^ 31 := by exact_mod_cast hA2
    omega
  have hqz : (q ij.2 : ℤ) < 2 ^ 31 := by
    have h1 := hq ij.2
    have h2 : (q ij.2 : ℤ) < A := by exact_mod_cast h1
    have h3 : (A : ℤ) ≤ 2 ^ 31 := by exact_mod_cast hA2
    omega
  have hxy : (p ij.1 : ℤ) * q ij.2 < 2 ^ 63 := by
    have h1 : (p ij.1 : ℤ) * q ij.2 < (2 ^ 31 : ℤ) * 2 ^ 31 :=
      mul_lt_mul'' hpz hqz (by positivity) (by positivity)
    omega
  unfold mulStepI64 mulStep
  rw [elemMulI64_eq_elemMul (by omega) (by omega) hxy]

/-- Below modulus 2^31 the wrapping polynomial multiply agrees with the
exact one on polynomials of stored values. -/
theorem polyMulI64_eq_polyMul {A N : ℕ} (hA2 : A ≤ 2 ^ 31) (p q : Poly N)
    (hp : ∀ i, p i < A) (hq : ∀ j, q j < A) :
    polyMulI64 A p q = polyMul A p q := by
  unfold polyMulI64 polyMul
  rw [show mulStepI64 A p q = mulStep A p q from
    funext fun out => funext fun ij => mulStepI64_eq_mulStep hA2 p q hp hq out ij]

/-- Claim C3, counterexample to the stated range: Element::new(9) under
modulus 17 stores 9, which is outside the claimed balanced range
[-8, 8] since 9 > 17 / 2 = 8. -/
theorem element_range_counterexample :
    elemNew 17 9 = 9 ∧ ¬(elemNew 17 9 ≤ 17 / 2) := by decide

/-- Claim C3 (amended: moduli up to 2^62, where the i64 arithmetic of the
reduction cannot overflow): every constructed Element value lies in the
canonical range [0, M), not in the claimed balanced range around zero:
new on any i64 argument, add, sub and neg on stored values, and the
release-build wrapping mul all reduce through the same total function
balanced, whose result is below M.  For M > 2^62 the i64 chain of the
source itself wraps and the invariant fails there (for example
Element::<2^63>::new(2^62) stores 3 * 2^62 >= M), so the bound is
necessary. -/
theorem element_ops_canonical_range (M : ℕ) (hM : 0 < M)
    (_hM2 : M ≤ 2 ^ 62) (x : ℤ) (_hx1 : -(2 ^ 63) ≤ x) (_hx2 : x < 2 ^ 63)
    (a b : ℕ) (_ha : a < M) (_hb : b < M) :
    elemNew M x < M ∧ elemAdd M a b < M ∧ elemSub M a b < M ∧
      elemNeg M a < M ∧ elemMulI64 M a b < M :=
  ⟨balanced_lt hM x, balanced_lt hM _, balanced_lt hM _, balanced_lt hM _,
    balanced_lt hM _⟩

/-- Witness for the amended C3 at modulus 17. -/
theorem element_ops_canonical_range_witness :
    (0 < 17 ∧ 17 ≤ 2 ^ 62 ∧ -(2 ^ 63) ≤ (-1000 : ℤ) ∧ (-1000 : ℤ) < 2 ^ 63 ∧
      5 < 17 ∧ 7 < 17) ∧
    (elemNew 17 (-1000) < 17 ∧ elemAdd 17 5 7 < 17 ∧ elemSub 17 5 7 < 17 ∧
      elemNeg 17 5 < 17 ∧ elemMulI64 17 5 7 < 17) :=
  ⟨by decide, element_ops_canonical_range 17 (by decide) (by decide) (-1000)
    (by decide) (by decide) 5 7 (by decide) (by decide)⟩

/-- Claim C5: Mul for Element multiplies the stored values as i64; for
modulus 2^63 - 1 and stored values 2^32 the exact product 2^64 overflows
i64.  A release build wraps it to 0 and the reduction returns 0 (a debug
build panics instead), while the exact product reduces to 2. -/
theorem elemMul_i64_overflow :
    elemMulI64 (2 ^ 63 - 1) (2 ^ 32) (2 ^ 32) = 0 ∧
      elemMul (2 ^ 63 - 1) (2 ^ 32) (2 ^ 32) = 2 ∧
      elemMulI64 (2 ^ 63 - 1) (2 ^ 32) (2 ^ 32) ≠
        elemMul (2 ^ 63 - 1) (2 ^ 32) (2 ^ 32) := by decide

/-- Claim C6, counterexample to balanced-value preservation: the
coefficient Element::<3>::new(-1) stores 2; lifting it to modulus 32
stores 2 again, so the balanced value changed from -1 (mod 3) to 2
(mod 32). -/
theorem lift_balanced_counterexample :
    elemNew 3 (-1) = 2 ∧
      lift 32 (polyOfList 1 [2]) ⟨0, Nat.one_pos⟩ = 2 ∧
      Int.bmod ((lift 32 (polyOfList 1 [2]) ⟨0, Nat.one_pos⟩ : ℕ) : ℤ) 32 ≠
        Int.bmod ((polyOfList 1 [2] ⟨0, Nat.one_pos⟩ : ℕ) : ℤ) 3 := by decide

/-- Claim C6 (amended): lift preserves the stored canonical representative
of each coefficient, reducing it modulo the target modulus; a stored value
already below the target modulus (for instance the {0, 1} coefficients of
a sampled secret key being lifted to a larger Q) is preserved exactly.
The balanced value is not preserved in general. -/
theorem lift_canonical (N B : ℕ) (hB : 0 < B) (p : Poly N) (i : Fin N) :
    lift B p i = p i % B ∧ (p i < B → lift B p i = p i) := by
  constructor
  · exact balanced_natCast hB _
  · intro h
    exact balanced_of_lt h

/-- Witness for the amended C6: lifting a mod-2 secret key coefficient to
modulus 32 keeps its integer value. -/
theorem lift_canonical_witness :
    0 < 32 ∧ (lift 32 (polyOfList 4 [1, 0, 1]) ⟨0, by decide⟩ = 1 % 32 ∧
      (polyOfList 4 [1, 0, 1] ⟨0, by decide⟩ < 32 →
        lift 32 (polyOfList 4 [1, 0, 1]) ⟨0, by decide⟩ =
          polyOfList 4 [1, 0, 1] ⟨0, by decide⟩)) :=
  ⟨by decide, lift_canonical 4 32 (by decide) (polyOfList 4 [1, 0, 1]) ⟨0, by decide⟩⟩

/-- Claim C7: ternary_error draws each coefficient from
random_range(0..=1), so every coefficient is 0 or 1; the value -1, stored
as A - 1 for A ≥ 3, is never produced, although the doc comment on
ternary_error and the spec describe the support as {-1, 0, +1}. -/
theorem ternaryError_support (N A : ℕ) (hA : 3 ≤ A) (r : Poly N)
    (hr : ∀ i, r i ≤ 1) (i : Fin N) :
    (ternaryError A r i = 0 ∨ ternaryError A r i = 1) ∧
      ternaryError A r i ≠ elemNew A (-1) := by
  have hA0 : 0 < A := by omega
  have h1 : ternaryError A r i = r i := balanced_of_lt (by have := hr i; omega)
  have h3 := balanced_eq_emod hA0 (-1)
  have hAz : (3 : ℤ) ≤ A := by exact_mod_cast hA
  have h4 : (-1 : ℤ) % A = A - 1 := by
    rw [show (-1 : ℤ) = (A - 1) + A * (-1) by ring, Int.add_mul_emod_self_left]
    exact Int.emod_eq_of_lt (by omega) (by omega)
  have h2 : elemNew A (-1) = A - 1 := by
    rw [elemNew]
    omega
  have h5 := hr i
  constructor
  · omega
  · omega

/-- Witness for C7 at N = 4, A = 32. -/
theorem ternaryError_support_witness :
    (3 ≤ 32 ∧ ∀ i : Fin 4, polyOfList 4 [1, 0, 1, 0] i ≤ 1) ∧
      ((ternaryError 32 (polyOfList 4 [1, 0, 1, 0]) ⟨0, by decide⟩ = 0 ∨
        ternaryError 32 (polyOfList 4 [1, 0, 1, 0]) ⟨0, by decide⟩ = 1) ∧
      ternaryError 32 (polyOfList 4 [1, 0, 1, 0]) ⟨0, by decide⟩ ≠
        elemNew 32 (-1)) :=
  ⟨⟨by decide, by decide⟩,
    ternaryError_support 4 32 (by decide) (polyOfList 4 [1, 0, 1, 0])
      (by decide) ⟨0, by decide⟩⟩

/-- Claim C9, counterexample to placing every representable bit: with
N = 17, int = 2^16 = 65536 and delta = 1, bit 16 of int is 1 but
coefficient 16 of from_int_scaled is 0, because the source only places
bits below u16::BITS = 16. -/
theorem fromIntScaled_counterexample :
    fromIntScaled 97 17 65536 1 ⟨16, by decide⟩ = 0 ∧
      (65536 >>> 16) &&& 1 = 1 ∧
      elemNew 97 ((((65536 >>> 16) &&& 1 : ℕ) : ℤ) * 1) = 1 := by decide

/-- Claim C9 (amended): coefficient i of from_int_scaled is bit i of int
times delta, reduced into the modulus, for i < 16 = u16::BITS, and is 0
for every i with 16 ≤ i < N. -/
theorem fromIntScaled_bits (A N : ℕ) (hA : 0 < A) (int : ℕ) (delta : ℤ)
    (i : Fin N) :
    fromIntScaled A N int delta i =
      if (i : ℕ) < 16 then
        balanced A (((int / 2 ^ (i : ℕ) % 2 : ℕ) : ℤ) * delta)
      else 0 := by
  unfold fromIntScaled
  by_cases h : (i : ℕ) < 16
  · rw [if_pos h, if_pos h]
    simp only [Nat.shiftRight_eq_div_pow, Nat.and_one_is_mod]
    rfl
  · rw [if_neg h, if_neg h]
    have h0 := balanced_natCast hA 0
    simpa [elemNew] using h0

/-- Witness for the amended C9 at A = 7, int = 5, delta = 2. -/
theorem fromIntScaled_bits_witness :
    0 < 7 ∧ fromIntScaled 7 4 5 2 ⟨1, by decide⟩ =
      (if ((⟨1, by decide⟩ : Fin 4) : ℕ) < 16 then
        balanced 7 (((5 / 2 ^ ((⟨1, by decide⟩ : Fin 4) : ℕ) % 2 : ℕ) : ℤ) * 2)
      else 0) :=
  ⟨by decide, fromIntScaled_bits 7 4 (by decide) 5 2 ⟨1, by decide⟩⟩

/-- Claim C4 counterexample (as stated, for every modulus): at modulus
2^62 - 1 with ring dimension 2 and cleanly stored coefficients 2^32, the
i64 coefficient product 2^64 of the source wraps to 0 in a release build
(a debug build panics), so the code returns 0 at index 0 while the
negacyclic convolution over the integers reduced mod (x^N + 1, M) is 4
there. -/
theorem polyMul_wrap_counterexample :
    polyMulI64 (2 ^ 62 - 1) (polyOfList 2 [4294967296])
        (polyOfList 2 [4294967296]) ⟨0, by decide⟩ = 0 ∧
      balanced (2 ^ 62 - 1) (∑ i : Fin 2, ∑ j : Fin 2,
        negacyclicContrib (polyOfList 2 [4294967296])
          (polyOfList 2 [4294967296]) ⟨0, by decide⟩ i j) = 4 ∧
      (0 : ℕ) ≠ 4 := by decide

/-- Claim C4 (amended: moduli up to 2^31 and polynomials of stored
values, where no i64 coefficient product can overflow): polynomial
multiplication computes the negacyclic convolution: the wrapping i64
loop agrees with the exact one, and at every output index k the result
is the reduction of the sum, over all coefficient pairs (i, j), of the
product p i * q j placed at index (i + j) mod N and negated exactly when
i + j >= N. -/
theorem polyMul_negacyclic {N : ℕ} (A : ℕ) (hA : 0 < A) (hA2 : A ≤ 2 ^ 31)
    (p q : Poly N) (hp : ∀ i, p i < A) (hq : ∀ j, q j < A) (k : Fin N) :
    polyMulI64 A p q = polyMul A p q ∧
      polyMul A p q k =
        balanced A (∑ i : Fin N, ∑ j : Fin N, negacyclicContrib p q k i j) :=
  ⟨polyMulI64_eq_polyMul hA2 p q hp hq, polyMul_eq_contrib_sum hA p q k⟩

/-- Witness for the amended C4 at modulus 7 and ring dimension 4. -/
theorem polyMul_negacyclic_witness :
    (0 < 7 ∧ 7 ≤ 2 ^ 31 ∧ (∀ i : Fin 4, polyOfList 4 [1, 2, 3, 4] i < 7) ∧
      (∀ j : Fin 4, polyOfList 4 [5, 6, 0, 1] j < 7)) ∧
    (polyMulI64 7 (polyOfList 4 [1, 2, 3, 4]) (polyOfList 4 [5, 6, 0, 1]) =
        polyMul 7 (polyOfList 4 [1, 2, 3, 4]) (polyOfList 4 [5, 6, 0, 1]) ∧
      polyMul 7 (polyOfList 4 [1, 2, 3, 4]) (polyOfList 4 [5, 6, 0, 1])
          ⟨2, by decide⟩ =
        balanced 7 (∑ i : Fin 4, ∑ j : Fin 4,
          negacyclicContrib (polyOfList 4 [1, 2, 3, 4])
            (polyOfList 4 [5, 6, 0, 1]) ⟨2, by decide⟩ i j)) :=
  ⟨⟨by decide, by decide, by decide, by decide⟩,
    polyMul_negacyclic 7 (by decide) (by decide) _ _ (by decide) (by decide)
      ⟨2, by decide⟩⟩

/-- Claim C2, counterexample to a shared decryption algorithm: on the
ciphertext ([8, 0, 0, 0], 0) with the zero secret key, Q = 32 and T = 2,
coefficient 0 decrypts to 1 under the rounding decrypts of src/bfv.rs and
src/bfv_pke.rs but to 0 under the msb decrypt of src/bfv_ske.rs. -/
theorem ske_decrypt_counterexample :
    skeDecrypt 32 (polyOfList 4 [8], polyOfList 4 []) (polyOfList 4 [])
        ⟨0, by decide⟩ = 0 ∧
      pkeDecrypt 32 2 (polyOfList 4 [8], polyOfList 4 []) (polyOfList 4 [])
        ⟨0, by decide⟩ = 1 ∧
      bfvDecrypt 32 2 (polyOfList 4 [8], polyOfList 4 []) (polyOfList 4 [])
        ⟨0, by decide⟩ = 1 := by
  refine ⟨?_, by decide, by decide⟩
  have hlog : Nat.log2 32 = 5 := by simp [Nat.log2]
  simp only [skeDecrypt, polyMsb, hlog]
  decide

/-- Claim C2 (amended): the decrypts of src/bfv.rs and src/bfv_pke.rs both
compute d = c1 + c2 * lift(sk) and then round each coefficient with
(value + delta/2) / delta reduced into Z_T, and they agree on every input;
the decrypt of src/bfv_ske.rs computes the same d but then takes the most
significant bit of each coefficient instead of rounding. -/
theorem decrypt_two_step (Q T N : ℕ) (c : Poly N × Poly N) (sk : Poly N) :
    bfvDecrypt Q T c sk = pkeDecrypt Q T c sk ∧
      skeDecrypt Q c sk = polyMsb Q (decPoly Q c sk) :=
  ⟨bfvDecrypt_eq_pkeDecrypt Q T c sk, rfl⟩

/-- Claim C10: with identical random samples, the scheme of src/bfv.rs and
the public-key scheme of src/bfv_pke.rs coincide at T = 2: keygen returns
identical keys, encrypt returns identical ciphertexts, and decrypt returns
identical plaintexts (the explicit mod T of src/bfv.rs is subsumed by the
reduction in Element::new). -/
theorem bfv_pke_equivalent (Q N : ℕ) (skS aS eS : Poly N)
    (pk : Poly N × Poly N) (m uS e1S e2S : Poly N) (c : Poly N × Poly N)
    (sk : Poly N) :
    bfvKeygen Q skS aS eS = pkeKeygen Q skS aS eS ∧
      bfvEncrypt Q 2 pk m uS e1S e2S = pkeEncrypt Q 2 pk m uS e1S e2S ∧
      bfvDecrypt Q 2 c sk = pkeDecrypt Q 2 c sk :=
  ⟨rfl, rfl, bfvDecrypt_eq_pkeDecrypt Q 2 c sk⟩

/-- Claim C8, counterexample to fail-fast validation: keygen checks
nothing.  With N = 3 (not a power of two), Q = 2 and all-zero samples it
returns the zero key pair instead of failing, and with T = 4 ≥ Q = 2 the
pipeline runs through and silently decrypts the message [2, 0, 0] to
[0, 0, 0]. -/
theorem keygen_no_reject_counterexample :
    pkeKeygen 2 (polyOfList 3 []) (polyOfList 3 []) (polyOfList 3 []) =
      ((polyOfList 3 [], polyOfList 3 []), polyOfList 3 []) ∧
      pkeDecrypt 2 4
        (pkeEncrypt 2 4 (polyOfList 3 [], polyOfList 3 []) (polyOfList 3 [2])
          (polyOfList 3 []) (polyOfList 3 []) (polyOfList 3 []))
        (polyOfList 3 []) ≠ polyOfList 3 [2] := by decide

set_option maxRecDepth 8000 in
/-- Claim C8 (amended): no parameter validation happens at construction
time: for every ciphertext modulus Q in the regime where the uniform
sampler of Polynomial::rand is constructible (0 < Q < 2^63, since
Uniform::new(0, Q as i64).unwrap() panics at Q = 0 and at Q >= 2^63),
keygen never inspects T or the shape of N and returns the key tuple
computed from the samples; a misconfigured instance (here N = 5,
T = 3 > Q = 2) proceeds to encrypt and then silently decrypts to a wrong
plaintext instead of reporting an error.  The only construction-time
failures, at Q = 0 (the Delta = 0 case) and Q >= 2^63, are sampler
panics inside rand(), not descriptive configuration errors. -/
theorem keygen_no_validation :
    (∀ (Q N : ℕ) (skS aS eS : Poly N), 0 < Q → Q < 2 ^ 63 →
      pkeKeygen Q skS aS eS =
        ((polyNeg Q (polyAdd Q
            (polyMul Q (polyRand Q aS) (lift Q (polyRand 2 skS)))
            (ternaryError Q eS)), polyRand Q aS), polyRand 2 skS) ∧
      bfvKeygen Q skS aS eS = pkeKeygen Q skS aS eS) ∧
      pkeDecrypt 2 3
        (pkeEncrypt 2 3 (pkeKeygen 2 (polyOfList 5 []) (polyOfList 5 [])
            (polyOfList 5 [])).1 (polyOfList 5 [2]) (polyOfList 5 [])
          (polyOfList 5 []) (polyOfList 5 []))
        (pkeKeygen 2 (polyOfList 5 []) (polyOfList 5 []) (polyOfList 5 [])).2 ≠
        polyOfList 5 [2] :=
  ⟨fun Q N skS aS eS _hQ _hQ2 => ⟨rfl, rfl⟩, by decide⟩

/-- Witness for the amended C8 at Q = 32, N = 4. -/
theorem keygen_no_validation_witness :
    (0 < 32 ∧ 32 < 2 ^ 63) ∧
    (pkeKeygen 32 (polyOfList 4 [1]) (polyOfList 4 [5]) (polyOfList 4 [1]) =
      ((polyNeg 32 (polyAdd 32
          (polyMul 32 (polyRand 32 (polyOfList 4 [5]))
            (lift 32 (polyRand 2 (polyOfList 4 [1]))))
          (ternaryError 32 (polyOfList 4 [1]))),
        polyRand 32 (polyOfList 4 [5])), polyRand 2 (polyOfList 4 [1])) ∧
      bfvKeygen 32 (polyOfList 4 [1]) (polyOfList 4 [5]) (polyOfList 4 [1]) =
        pkeKeygen 32 (polyOfList 4 [1]) (polyOfList 4 [5]) (polyOfList 4 [1])) :=
  ⟨⟨by decide, by decide⟩,
    keygen_no_validation.1 32 4 (polyOfList 4 [1]) (polyOfList 4 [5])
      (polyOfList 4 [1]) (by decide) (by decide)⟩

set_option maxRecDepth 8000 in
/-- Claim C1 counterexample (as stated, with no divisibility requirement
between T and Q): with N = 4, Q = 10, T = 3 (a configuration with Q > T
and N a power of two), zero secret key, keygen error [1, 0, 0, 0],
message m = 0 and encryption randomness u = [1, 0, 0, 0], every
coefficient of c1 + c2 * lift(sk) differs from delta * m_i by a noise of
absolute value at most 1, and 2 * 1 < delta = 4, yet decryption returns
[2, 0, 0, 0] instead of m. -/
theorem pke_roundtrip_counterexample :
    (∀ i : Fin 4, polyOfList 4 [] i < 3) ∧
    (∀ i : Fin 4,
      2 * ((if i = (⟨0, by decide⟩ : Fin 4) then (-1 : ℤ) else 0).natAbs) <
        divCeil 10 3 ∧
      ((decPoly 10
          (pkeEncrypt 10 3
            (pkeKeygen 10 (polyOfList 4 []) (polyOfList 4 [])
              (polyOfList 4 [1])).1
            (polyOfList 4 []) (polyOfList 4 [1]) (polyOfList 4 [])
            (polyOfList 4 []))
          (pkeKeygen 10 (polyOfList 4 []) (polyOfList 4 [])
            (polyOfList 4 [1])).2 i : ℕ) : ℤ) ≡
        ((divCeil 10 3 : ℕ) : ℤ) * (polyOfList 4 [] i) +
          (if i = (⟨0, by decide⟩ : Fin 4) then (-1 : ℤ) else 0)
        [ZMOD (10 : ℤ)]) ∧
    pkeDecrypt 10 3
        (pkeEncrypt 10 3
          (pkeKeygen 10 (polyOfList 4 []) (polyOfList 4 [])
            (polyOfList 4 [1])).1
          (polyOfList 4 []) (polyOfList 4 [1]) (polyOfList 4 [])
          (polyOfList 4 []))
        (pkeKeygen 10 (polyOfList 4 []) (polyOfList 4 [])
          (polyOfList 4 [1])).2 ≠
      polyOfList 4 [] := by decide

/-- Claim C1 (amended: the parameters must additionally satisfy T ∣ Q;
the claim as stated fails otherwise): for every public key and secret
key, decrypting an encryption of m returns m whenever every coefficient
of c1 + c2 * lift(sk) is congruent mod Q to delta * m_i plus a noise of
absolute value strictly below delta / 2; and the sum of two encryptions
decrypts to the coefficientwise sum of the two messages mod T whenever
the accumulated noise of the summed ciphertext obeys the same bound. -/
theorem pke_roundtrip (N Q T : ℕ) (hT : 0 < T) (hQ : 0 < Q) (hdvd : T ∣ Q)
    (pk : Poly N × Poly N) (sk : Poly N) :
    (∀ m uS e1S e2S : Poly N, (∀ i, m i < T) →
      (∀ i, ∃ v : ℤ, 2 * v.natAbs < divCeil Q T ∧
        ((decPoly Q (pkeEncrypt Q T pk m uS e1S e2S) sk i : ℕ) : ℤ) ≡
          ((divCeil Q T : ℕ) : ℤ) * (m i) + v [ZMOD (Q : ℤ)]) →
      pkeDecrypt Q T (pkeEncrypt Q T pk m uS e1S e2S) sk = m) ∧
    (∀ ma mb uA e1A e2A uB e1B e2B : Poly N,
      (∀ i, ma i < T) → (∀ i, mb i < T) →
      (∀ i, ∃ v : ℤ, 2 * v.natAbs < divCeil Q T ∧
        ((decPoly Q (cipherAdd Q (pkeEncrypt Q T pk ma uA e1A e2A)
            (pkeEncrypt Q T pk mb uB e1B e2B)) sk i : ℕ) : ℤ) ≡
          ((divCeil Q T : ℕ) : ℤ) * ((ma i : ℤ) + (mb i : ℤ)) + v
        [ZMOD (Q : ℤ)]) →
      pkeDecrypt Q T (cipherAdd Q (pkeEncrypt Q T pk ma uA e1A e2A)
        (pkeEncrypt Q T pk mb uB e1B e2B)) sk = polyAdd T ma mb) := by
  have hQTD : ((divCeil Q T : ℕ) : ℤ) * T = Q := by
    rw [divCeil_of_dvd hdvd]
    exact_mod_cast congrArg (Nat.cast : ℕ → ℤ) (Nat.div_mul_cancel hdvd)
  constructor
  · intro m uS e1S e2S hm hnoise
    exact pkeDecrypt_eq_of_noise hT hQ hdvd _ sk m hm hnoise
  · intro ma mb uA e1A e2A uB e1B e2B hma hmb hnoise
    apply pkeDecrypt_eq_of_noise hT hQ hdvd _ sk (polyAdd T ma mb)
      (fun i => polyAdd_lt hT ma mb i)
    intro i
    obtain ⟨v, hb, hc⟩ := hnoise i
    refine ⟨v, hb, ?_⟩
    have h1 : ((polyAdd T ma mb i : ℕ) : ℤ) ≡ (ma i : ℤ) + mb i
        [ZMOD (T : ℤ)] := elemAdd_modEq hT _ _
    obtain ⟨w, hw⟩ := Int.modEq_iff_dvd.mp h1
    have hstep : ((divCeil Q T : ℕ) : ℤ) * ((ma i : ℤ) + (mb i : ℤ)) ≡
        ((divCeil Q T : ℕ) : ℤ) * (polyAdd T ma mb i) [ZMOD (Q : ℤ)] := by
      apply Int.modEq_iff_dvd.mpr
      refine ⟨-w, ?_⟩
      have hkey : ((divCeil Q T : ℕ) : ℤ) * ((ma i : ℤ) + mb i) -
          ((divCeil Q T : ℕ) : ℤ) * (polyAdd T ma mb i) =
            (Q : ℤ) * w := by
        calc ((divCeil Q T : ℕ) : ℤ) * ((ma i : ℤ) + mb i) -
            ((divCeil Q T : ℕ) : ℤ) * (polyAdd T ma mb i)
            = ((divCeil Q T : ℕ) : ℤ) *
              (((ma i : ℤ) + mb i) - (polyAdd T ma mb i : ℤ)) := by ring
          _ = ((divCeil Q T : ℕ) : ℤ) * ((T : ℤ) * w) := by rw [hw]
          _ = (((divCeil Q T : ℕ) : ℤ) * T) * w := by ring
          _ = (Q : ℤ) * w := by rw [hQTD]
      linarith [hkey]
    exact hc.trans (Int.ModEq.add_right v hstep)

/-- Witness for the amended C1 at N = 4, Q = 32, T = 2 with all-zero
randomness, message [1, 0, 1, 0], and messages [1, 0, 1, 0] and
[0, 1, 1, 1] for the homomorphic sum. -/
theorem pke_roundtrip_witness :
    pkeDecrypt 32 2
        (pkeEncrypt 32 2
          (pkeKeygen 32 (polyOfList 4 []) (polyOfList 4 []) (polyOfList 4 [])).1
          (polyOfList 4 [1, 0, 1, 0]) (polyOfList 4 []) (polyOfList 4 [])
          (polyOfList 4 []))
        (pkeKeygen 32 (polyOfList 4 []) (polyOfList 4 []) (polyOfList 4 [])).2 =
      polyOfList 4 [1, 0, 1, 0] ∧
    pkeDecrypt 32 2
        (cipherAdd 32
          (pkeEncrypt 32 2
            (pkeKeygen 32 (polyOfList 4 []) (polyOfList 4 []) (polyOfList 4 [])).1
            (polyOfList 4 [1, 0, 1, 0]) (polyOfList 4 []) (polyOfList 4 [])
            (polyOfList 4 []))
          (pkeEncrypt 32 2
            (pkeKeygen 32 (polyOfList 4 []) (polyOfList 4 []) (polyOfList 4 [])).1
            (polyOfList 4 [0, 1, 1, 1]) (polyOfList 4 []) (polyOfList 4 [])
            (polyOfList 4 [])))
        (pkeKeygen 32 (polyOfList 4 []) (polyOfList 4 []) (polyOfList 4 [])).2 =
      polyAdd 2 (polyOfList 4 [1, 0, 1, 0]) (polyOfList 4 [0, 1, 1, 1]) :=
  ⟨(pke_roundtrip 4 32 2 (by decide) (by decide) (by decide)
      (pkeKeygen 32 (polyOfList 4 []) (polyOfList 4 []) (polyOfList 4 [])).1
      (pkeKeygen 32 (polyOfList 4 []) (polyOfList 4 []) (polyOfList 4 [])).2).1
    (polyOfList 4 [1, 0, 1, 0]) (polyOfList 4 []) (polyOfList 4 [])
    (polyOfList 4 []) (by decide)
    (by
      intro i
      refine ⟨0, by decide, ?_⟩
      fin_cases i <;> decide),
  (pke_roundtrip 4 32 2 (by decide) (by decide) (by decide)
      (pkeKeygen 32 (polyOfList 4 []) (polyOfList 4 []) (polyOfList 4 [])).1
      (pkeKeygen 32 (polyOfList 4 []) (polyOfList 4 []) (polyOfList 4 [])).2).2
    (polyOfList 4 [1, 0, 1, 0]) (polyOfList 4 [0, 1, 1, 1]) (polyOfList 4 [])
    (polyOfList 4 []) (polyOfList 4 []) (polyOfList 4 []) (polyOfList 4 [])
    (polyOfList 4 []) (by decide) (by decide)
    (by
      intro i
      refine ⟨0, by decide, ?_⟩
      fin_cases i <;> decide)⟩

end RLattice
